import Mathlib

/-!
Verification development for the `scheduler` repository (`src/scheduler.py`).

The first section is a shallow embedding of the program: Python `int`
minutes become `Int`, the weekday strings become `String`, the classes
`Time`, `ClassTime`, `UnrealizedClass` and `Class` become structures, and
the loops of `build_schedules` / `get_fitting_classes` /
`new_class_time_fits` become `List.foldl` accumulations that mirror the
`append`-driven Python loops line by line.
-/

namespace Scheduler

/-- Embeds Python `Time` (scheduler.py lines 6-28): a minute count.
`Time(hours, mins)` stores `hours * 60 + mins`. -/
structure Time where
  mins : Int
deriving DecidableEq

/-- Embeds the constructor `Time(hours, mins)` (line 7-8). -/
def Time.make (hours : Int) (mins : Int) : Time :=
  ⟨hours * 60 + mins⟩

/-- Embeds `Time.__add__` (lines 10-11). -/
def Time.add (a b : Time) : Time :=
  ⟨a.mins + b.mins⟩

/-- Embeds `Time.__mul__` (lines 13-14). -/
def Time.mul (a : Time) (i : Int) : Time :=
  ⟨a.mins * i⟩

/-- Embeds `Time.__lt__` (lines 21-22). -/
def Time.lt (a b : Time) : Bool :=
  decide (a.mins < b.mins)

/-- Embeds `Time.__eq__` (lines 24-25). -/
def Time.eq (a b : Time) : Bool :=
  decide (a.mins = b.mins)

/-- Embeds `Time.__le__` (lines 27-28): `(self < other) or (self == other)`. -/
def Time.le (a b : Time) : Bool :=
  a.lt b || a.eq b

/-- Embeds `Day.MON` (line 32). -/
def Day.MON : String := "Mon"

/-- Embeds `Day.TUES` (line 33). -/
def Day.TUES : String := "Tues"

/-- Embeds `Day.WED` (line 34). -/
def Day.WED : String := "Wed"

/-- Embeds `Day.THUR` (line 35). -/
def Day.THUR : String := "Thur"

/-- Embeds `Day.FRI` (line 36). -/
def Day.FRI : String := "Fri"

/-- Embeds `Day.DAYS` (line 38). -/
def Day.DAYS : List String :=
  [Day.MON, Day.TUES, Day.WED, Day.THUR, Day.FRI]

/-- Embeds `ClassTime` (lines 41-47): a single block of class time on a day. -/
structure ClassTime where
  day : String
  start_time : Time
  end_time : Time
deriving DecidableEq

/-- Embeds `ClassTime.overlaps` (lines 52-58).  Python's `x >= y` with only
`__lt__`/`__eq__`/`__le__` defined resolves to the reflected `y.__le__(x)`,
so `self.start_time >= other.start_time` is `other.start_time.le self.start_time`. -/
def ClassTime.overlaps (self other : ClassTime) : Bool :=
  let same_day := decide (self.day = other.day)
  let start_in_other :=
    (other.start_time.le self.start_time) && (self.start_time.le other.end_time)
  let end_in_other :=
    (other.start_time.le self.end_time) && (self.end_time.le other.end_time)
  same_day && (start_in_other || end_in_other)

/-- Embeds `UnrealizedClass` (lines 61-66): a course request with options. -/
structure UnrealizedClass where
  name : String
  time_options : List (List ClassTime)
deriving DecidableEq

/-- Embeds `Class` (lines 81-86): a realized class with set times. -/
structure Class where
  name : String
  times : List ClassTime
deriving DecidableEq

/-- Embeds `new_class_time_fits` (lines 112-118).  The Python triple loop
returns `False` as soon as any selected time overlaps a new time, which is
exactly this triple `List.all` of negated overlap checks. -/
def new_class_time_fits (schedule : List Class) (new_times : List ClassTime) : Bool :=
  new_times.all fun new_time =>
    schedule.all fun c =>
      c.times.all fun time => !(time.overlaps new_time)

/-- Embeds `get_fitting_classes` (lines 104-109): the loop appends
`Class(new_class.name, time_option)` for each fitting option, in option order. -/
def get_fitting_classes (schedule : List Class) (new_class : UnrealizedClass) : List Class :=
  new_class.time_options.foldl
    (fun fitting_classes time_option =>
      if new_class_time_fits schedule time_option then
        fitting_classes ++ [Class.mk new_class.name time_option]
      else
        fitting_classes)
    []

/-- Embeds one iteration of the outer `for c in class_options` loop of
`build_schedules` (lines 95-100): starting from `new_schedules = []`, for each
existing schedule and each fitting class, append `schedule.copy() + [fitting_class]`. -/
def build_step (schedules : List (List Class)) (c : UnrealizedClass) : List (List Class) :=
  schedules.foldl
    (fun new_schedules schedule =>
      (get_fitting_classes schedule c).foldl
        (fun acc fitting_class => acc ++ [schedule ++ [fitting_class]])
        new_schedules)
    []

/-- Embeds `build_schedules` (lines 92-101): start from `[[]]` and run
`build_step` for each requested class in input order. -/
def build_schedules (class_options : List UnrealizedClass) : List (List Class) :=
  class_options.foldl build_step [[]]

/-! Basic rewriting lemmas turning the accumulator loops into
`filter`/`map`/`flatMap` form. -/

theorem foldl_append_singleton {α β : Type} (f : α → β) :
    ∀ (l : List α) (init : List β),
      l.foldl (fun acc x => acc ++ [f x]) init = init ++ l.map f := by
  intro l
  induction l with
  | nil => intro init; simp
  | cons x xs ih =>
      intro init
      simp [List.foldl_cons, ih]

theorem foldl_append_filter {α β : Type} (p : α → Bool) (f : α → β) :
    ∀ (l : List α) (init : List β),
      l.foldl (fun acc x => if p x then acc ++ [f x] else acc) init =
        init ++ (l.filter p).map f := by
  intro l
  induction l with
  | nil => intro init; simp
  | cons x xs ih =>
      intro init
      by_cases h : p x = true
      · simp [List.foldl_cons, h, ih, List.filter_cons]
      · have h' : p x = false := by
          cases hpx : p x
          · rfl
          · exact absurd hpx h
        simp [List.foldl_cons, h', ih, List.filter_cons]

/-- `get_fitting_classes` in `filter`/`map` form. -/
theorem get_fitting_classes_eq (schedule : List Class) (c : UnrealizedClass) :
    get_fitting_classes schedule c =
      (c.time_options.filter fun o => new_class_time_fits schedule o).map
        fun o => Class.mk c.name o := by
  unfold get_fitting_classes
  simpa using
    foldl_append_filter (fun o => new_class_time_fits schedule o)
      (fun o => Class.mk c.name o) c.time_options []

theorem build_step_foldl_eq (c : UnrealizedClass) :
    ∀ (schedules : List (List Class)) (init : List (List Class)),
      schedules.foldl
        (fun new_schedules schedule =>
          (get_fitting_classes schedule c).foldl
            (fun acc fitting_class => acc ++ [schedule ++ [fitting_class]])
            new_schedules)
        init =
      init ++ schedules.flatMap
        (fun schedule => (get_fitting_classes schedule c).map
          fun fitting_class => schedule ++ [fitting_class]) := by
  intro schedules
  induction schedules with
  | nil => intro init; simp
  | cons s rest ih =>
      intro init
      simp only [List.foldl_cons, List.flatMap_cons]
      rw [foldl_append_singleton (fun fitting_class => s ++ [fitting_class])
        (get_fitting_classes s c) init]
      rw [ih, List.append_assoc]

/-- `build_step` in `flatMap` form. -/
theorem build_step_eq (schedules : List (List Class)) (c : UnrealizedClass) :
    build_step schedules c =
      schedules.flatMap
        (fun schedule => (get_fitting_classes schedule c).map
          fun fitting_class => schedule ++ [fitting_class]) := by
  unfold build_step
  simpa using build_step_foldl_eq c schedules []

/-- Membership in one expansion step. -/
theorem mem_build_step {x : List Class} {schedules : List (List Class)}
    {c : UnrealizedClass} :
    x ∈ build_step schedules c ↔
      ∃ s ∈ schedules, ∃ o ∈ c.time_options,
        new_class_time_fits s o = true ∧ x = s ++ [Class.mk c.name o] := by
  rw [build_step_eq]
  simp only [List.mem_flatMap, List.mem_map, get_fitting_classes_eq, List.mem_filter]
  aesop

/-! Characterization of the embedded predicates in arithmetic form. -/

theorem Time.le_iff (a b : Time) : Time.le a b = true ↔ a.mins ≤ b.mins := by
  simp only [Time.le, Time.lt, Time.eq, Bool.or_eq_true, decide_eq_true_eq]
  omega

/-- `overlaps` in plain arithmetic form: same day, and one of `self`'s
endpoints lies in `other`'s closed range. -/
theorem overlaps_iff (a b : ClassTime) :
    a.overlaps b = true ↔
      a.day = b.day ∧
        ((b.start_time.mins ≤ a.start_time.mins ∧ a.start_time.mins ≤ b.end_time.mins) ∨
          (b.start_time.mins ≤ a.end_time.mins ∧ a.end_time.mins ≤ b.end_time.mins)) := by
  simp only [ClassTime.overlaps, Bool.and_eq_true, Bool.or_eq_true, decide_eq_true_eq,
    Time.le_iff]

/-! Claim theorems for the interval-level claims. -/

/-- Claim C1 (code bug): the spec's no-conflict invariant fails on the code.
With requests R1 = [option [(Mon, 09:00-12:00)]] and R2 =
[option [(Mon, 10:00-11:00)]] — both intervals well formed — `build_schedules`
returns the schedule selecting both classes even though the second class's
block lies strictly inside the first one's, and indeed
`overlaps((Mon,10:00-11:00), (Mon,09:00-12:00)) = true`: the overlap test only
looks at whether `self`'s endpoints fall inside `other`, so it misses strict
containment and a genuinely double-booked schedule is returned. -/
theorem c1_no_conflict_invariant_fails_on_containment :
    build_schedules
        [UnrealizedClass.mk "R1" [[ClassTime.mk Day.MON (Time.make 9 0) (Time.make 12 0)]],
         UnrealizedClass.mk "R2" [[ClassTime.mk Day.MON (Time.make 10 0) (Time.make 11 0)]]] =
      [[Class.mk "R1" [ClassTime.mk Day.MON (Time.make 9 0) (Time.make 12 0)],
        Class.mk "R2" [ClassTime.mk Day.MON (Time.make 10 0) (Time.make 11 0)]]] ∧
    ClassTime.overlaps (ClassTime.mk Day.MON (Time.make 10 0) (Time.make 11 0))
        (ClassTime.mk Day.MON (Time.make 9 0) (Time.make 12 0)) = true ∧
    (Time.make 9 0).mins ≤ (Time.make 12 0).mins ∧
    (Time.make 10 0).mins ≤ (Time.make 11 0).mins := by
  decide

/-- Claim C2 (counterexample): `overlaps` is not symmetric even for
well-formed intervals on the same weekday.  With a = (Mon, 09:00-12:00) and
b = (Mon, 10:00-11:00), `overlaps(a, b) = false` but `overlaps(b, a) = true`,
because neither endpoint of the enclosing interval lies inside the
enclosed one. -/
theorem c2_overlaps_symmetry_counterexample :
    (ClassTime.mk Day.MON (Time.make 9 0) (Time.make 12 0)).day =
        (ClassTime.mk Day.MON (Time.make 10 0) (Time.make 11 0)).day ∧
    (Time.make 9 0).mins ≤ (Time.make 12 0).mins ∧
    (Time.make 10 0).mins ≤ (Time.make 11 0).mins ∧
    ¬(ClassTime.overlaps (ClassTime.mk Day.MON (Time.make 9 0) (Time.make 12 0))
          (ClassTime.mk Day.MON (Time.make 10 0) (Time.make 11 0)) =
        ClassTime.overlaps (ClassTime.mk Day.MON (Time.make 10 0) (Time.make 11 0))
          (ClassTime.mk Day.MON (Time.make 9 0) (Time.make 12 0))) := by
  decide

/-- Claim C2 (amended): for intervals a, b on the same weekday, each with
start <= end, `overlaps(a, b) == overlaps(b, a)` holds provided neither
interval strictly contains the other (strict containment is exactly the
asymmetric case). -/
theorem c2_overlaps_symmetric_when_not_nested (a b : ClassTime)
    (hday : a.day = b.day)
    (ha : a.start_time.mins ≤ a.end_time.mins)
    (hb : b.start_time.mins ≤ b.end_time.mins)
    (hab : ¬(a.start_time.mins < b.start_time.mins ∧ b.end_time.mins < a.end_time.mins))
    (hba : ¬(b.start_time.mins < a.start_time.mins ∧ a.end_time.mins < b.end_time.mins)) :
    a.overlaps b = b.overlaps a := by
  rw [Bool.eq_iff_iff, overlaps_iff, overlaps_iff]
  constructor
  · rintro ⟨h1, h2⟩
    exact ⟨h1.symm, by omega⟩
  · rintro ⟨h1, h2⟩
    exact ⟨h1.symm, by omega⟩

/-- Witness for the amended C2 at a = (Mon, 09:00-10:00), b = (Mon, 09:30-10:30). -/
theorem c2_overlaps_symmetric_when_not_nested_witness :
    ClassTime.overlaps (ClassTime.mk Day.MON (Time.make 9 0) (Time.make 10 0))
        (ClassTime.mk Day.MON (Time.make 9 30) (Time.make 10 30)) =
      ClassTime.overlaps (ClassTime.mk Day.MON (Time.make 9 30) (Time.make 10 30))
        (ClassTime.mk Day.MON (Time.make 9 0) (Time.make 10 0)) :=
  c2_overlaps_symmetric_when_not_nested
    (ClassTime.mk Day.MON (Time.make 9 0) (Time.make 10 0))
    (ClassTime.mk Day.MON (Time.make 9 30) (Time.make 10 30))
    (by decide) (by decide) (by decide) (by decide) (by decide)

/-- Claim C4: two intervals that merely touch at an endpoint count as
overlapping: `overlaps((Mon, 09:00-10:00), (Mon, 10:00-11:00)) = true`,
because the closed-interval comparison puts 10:00 inside [10:00, 11:00]. -/
theorem c4_touching_counts_as_overlap :
    ClassTime.overlaps (ClassTime.mk Day.MON (Time.make 9 0) (Time.make 10 0))
      (ClassTime.mk Day.MON (Time.make 10 0) (Time.make 11 0)) = true := by
  decide

/-- Claim C5: `build_schedules` on the empty request list returns exactly one
schedule, and that schedule has zero selections. -/
theorem c5_empty_input_identity : build_schedules [] = [[]] := rfl

/-! Emptiness propagation lemmas for C6. -/

theorem build_step_nil (c : UnrealizedClass) : build_step [] c = [] := rfl

theorem build_step_empty_options (schedules : List (List Class)) (c : UnrealizedClass)
    (h : c.time_options = []) : build_step schedules c = [] := by
  simp [build_step_eq, get_fitting_classes_eq, h]

theorem foldl_build_step_nil (rs : List UnrealizedClass) : rs.foldl build_step [] = [] := by
  induction rs with
  | nil => rfl
  | cons c rest ih => rw [List.foldl_cons, build_step_nil, ih]

theorem foldl_build_step_empty_opt :
    ∀ (rs : List UnrealizedClass) (acc : List (List Class)),
      (∃ r ∈ rs, r.time_options = []) → rs.foldl build_step acc = [] := by
  intro rs
  induction rs with
  | nil =>
      rintro acc ⟨r, hr, _⟩
      exact absurd hr (List.not_mem_nil r)
  | cons c rest ih =>
      rintro acc ⟨r, hr, hempty⟩
      rcases List.mem_cons.mp hr with rfl | hr'
      · rw [List.foldl_cons, build_step_empty_options _ _ hempty, foldl_build_step_nil]
      · rw [List.foldl_cons]
        exact ih _ ⟨r, hr', hempty⟩

/-- Claim C6: if any request has an empty `time_options` list then
`build_schedules` returns the empty list of schedules (and, being a total
function of the embedding, raises no error). -/
theorem c6_empty_option_collapse (reqs : List UnrealizedClass)
    (h : ∃ r ∈ reqs, r.time_options = []) : build_schedules reqs = [] :=
  foldl_build_step_empty_opt reqs [[]] h

/-- Witness for C6: one request with zero options alongside one request with
one option yields zero schedules. -/
theorem c6_empty_option_collapse_witness :
    build_schedules
      [UnrealizedClass.mk "A" [],
       UnrealizedClass.mk "B" [[ClassTime.mk Day.MON (Time.make 9 0) (Time.make 10 0)]]] = [] :=
  c6_empty_option_collapse _ (by decide)

/-! Counting lemmas for C7. -/

theorem length_build_step_le (schedules : List (List Class)) (c : UnrealizedClass) :
    (build_step schedules c).length ≤ schedules.length * c.time_options.length := by
  rw [build_step_eq]
  induction schedules with
  | nil => simp
  | cons s rest ih =>
      rw [List.flatMap_cons]
      simp only [List.length_append, List.length_map, List.length_cons]
      have h1 : (get_fitting_classes s c).length ≤ c.time_options.length := by
        rw [get_fitting_classes_eq]
        simpa using List.length_filter_le _ _
      calc (get_fitting_classes s c).length +
            (rest.flatMap fun schedule =>
              (get_fitting_classes schedule c).map fun fc => schedule ++ [fc]).length
          ≤ c.time_options.length + rest.length * c.time_options.length := by
            exact Nat.add_le_add h1 ih
        _ = (rest.length + 1) * c.time_options.length := by ring

theorem length_foldl_build_step :
    ∀ (rs : List UnrealizedClass) (acc : List (List Class)),
      (rs.foldl build_step acc).length ≤
        acc.length * (rs.map fun r => r.time_options.length).prod := by
  intro rs
  induction rs with
  | nil => intro acc; simp
  | cons c rest ih =>
      intro acc
      rw [List.foldl_cons, List.map_cons, List.prod_cons]
      calc (rest.foldl build_step (build_step acc c)).length
          ≤ (build_step acc c).length * (rest.map fun r => r.time_options.length).prod :=
            ih _
        _ ≤ (acc.length * c.time_options.length) *
              (rest.map fun r => r.time_options.length).prod :=
            Nat.mul_le_mul_right _ (length_build_step_le acc c)
        _ = acc.length *
              (c.time_options.length * (rest.map fun r => r.time_options.length).prod) := by
            ring

/-- Claim C7: the number of schedules returned never exceeds the product of
the numbers of time options across all requests. -/
theorem c7_cartesian_upper_bound (reqs : List UnrealizedClass) :
    (build_schedules reqs).length ≤ (reqs.map fun r => r.time_options.length).prod := by
  simpa using length_foldl_build_step reqs [[]]

/-! Spec-side definition of the expansion order for C8. -/

/-- Modelled from the spec's ordering words (section 4.3): at each stage the
outer iteration runs over the existing working set of schedules preserving
their order, the inner iteration runs over the new request's options in input
order, and each fitting option extends the fixed existing schedule, so the new
request's options vary fastest. -/
def nested_expansion_step (working : List (List Class)) (r : UnrealizedClass) :
    List (List Class) :=
  working.flatMap fun p =>
    (r.time_options.filter fun o => new_class_time_fits p o).map
      fun o => p ++ [Class.mk r.name o]

/-- Modelled from the spec: the builder starts from a single empty schedule
and applies the nested expansion stage for each request in input order. -/
def nested_expansion (reqs : List UnrealizedClass) : List (List Class) :=
  reqs.foldl nested_expansion_step [[]]

theorem build_step_eq_nested_expansion_step :
    build_step = nested_expansion_step := by
  funext working r
  rw [build_step_eq, nested_expansion_step]
  simp [get_fitting_classes_eq, List.map_map, Function.comp_def]

/-- Claim C8: for fixed input, the returned schedule list is exactly the one
produced by the deterministic nested-expansion order described by the spec:
outer loop over existing schedules in order, inner loop over the new request's
options in input order, so options of the new request vary fastest for a fixed
prior schedule.  Both sides are pure functions, so the output is fully
deterministic. -/
theorem c8_deterministic_nested_order (reqs : List UnrealizedClass) :
    build_schedules reqs = nested_expansion reqs := by
  unfold build_schedules nested_expansion
  rw [build_step_eq_nested_expansion_step]

/-! Combination predicates: what it means for a list of realized classes to
select exactly one option per request, and conflict-freeness notions. -/

/-- `is_combo reqs cs` holds when `cs` selects exactly one option per request
of `reqs`, in order: same length, matching names, and each selection's times
drawn from the corresponding request's `time_options`. -/
def is_combo : List UnrealizedClass → List Class → Bool
  | [], [] => true
  | [], _ :: _ => false
  | _ :: _, [] => false
  | r :: rs, c :: cs =>
      decide (c.name = r.name) && decide (c.times ∈ r.time_options) && is_combo rs cs

/-- `fits_after p t` holds when the classes of `t`, appended one by one after
the already-selected classes `p`, each pass the builder's
`new_class_time_fits` check at the moment they are appended. -/
def fits_after : List Class → List Class → Bool
  | _, [] => true
  | p, c :: rest => new_class_time_fits p c.times && fits_after (p ++ [c]) rest

/-- Directional conflict-freeness: for every earlier selection `a` and later
selection `b`, every interval `t` of `a` and `u` of `b` has
`t.overlaps u = false` (the argument order the builder actually checks). -/
def dir_conflict_free : List Class → Bool
  | [] => true
  | c :: rest =>
      (rest.all fun c2 => c2.times.all fun u => c.times.all fun t => !(t.overlaps u)) &&
        dir_conflict_free rest

/-- Both-orders disjointness of two selections. -/
def classes_disjoint (a b : Class) : Bool :=
  a.times.all fun t => b.times.all fun u => !(t.overlaps u) && !(u.overlaps t)

/-- Symmetric conflict-freeness: every pair of distinct selections has
`overlaps = false` for every interval pair, in both argument orders. -/
def sym_conflict_free : List Class → Bool
  | [] => true
  | c :: rest => rest.all (classes_disjoint c) && sym_conflict_free rest

/-! Characterization of membership in the builder's output. -/

theorem mem_foldl_build_step :
    ∀ (rs : List UnrealizedClass) (acc : List (List Class)) (cs : List Class),
      cs ∈ rs.foldl build_step acc ↔
        ∃ p ∈ acc, ∃ t, cs = p ++ t ∧ is_combo rs t = true ∧ fits_after p t = true := by
  intro rs
  induction rs with
  | nil =>
      intro acc cs
      simp only [List.foldl_nil]
      constructor
      · intro h
        exact ⟨cs, h, [], (List.append_nil cs).symm, rfl, rfl⟩
      · rintro ⟨p, hp, t, hcs, hcombo, hfits⟩
        cases t with
        | nil =>
            rw [List.append_nil] at hcs
            exact hcs ▸ hp
        | cons c cs' => simp [is_combo] at hcombo
  | cons r rest ih =>
      intro acc cs
      rw [List.foldl_cons, ih]
      constructor
      · rintro ⟨p', hp', t', rfl, hcombo, hfits⟩
        rcases mem_build_step.mp hp' with ⟨p, hp, o, ho, hfit, rfl⟩
        refine ⟨p, hp, Class.mk r.name o :: t', by simp, ?_, ?_⟩
        · simp [is_combo, ho, hcombo]
        · simp [fits_after, hfit, hfits]
      · rintro ⟨p, hp, t, rfl, hcombo, hfits⟩
        cases t with
        | nil => simp [is_combo] at hcombo
        | cons c t' =>
            simp only [is_combo, Bool.and_eq_true, decide_eq_true_eq] at hcombo
            obtain ⟨⟨hname, hmem⟩, hcombo'⟩ := hcombo
            simp only [fits_after, Bool.and_eq_true] at hfits
            obtain ⟨hfit, hfits'⟩ := hfits
            refine ⟨p ++ [c], ?_, t', by simp, hcombo', hfits'⟩
            apply mem_build_step.mpr
            refine ⟨p, hp, c.times, hmem, hfit, ?_⟩
            cases c with
            | mk nm ts =>
                simp only at hname
                rw [hname]

/-- A schedule is returned by `build_schedules` exactly when it selects one
option per request and every selection passed the builder's fit check against
the selections made before it. -/
theorem mem_build_schedules (reqs : List UnrealizedClass) (cs : List Class) :
    cs ∈ build_schedules reqs ↔ is_combo reqs cs = true ∧ fits_after [] cs = true := by
  unfold build_schedules
  rw [mem_foldl_build_step]
  constructor
  · rintro ⟨p, hp, t, rfl, h1, h2⟩
    simp only [List.mem_singleton] at hp
    subst hp
    simpa using ⟨h1, h2⟩
  · rintro ⟨h1, h2⟩
    exact ⟨[], by simp, cs, by simp, h1, h2⟩

/-! Splitting `new_class_time_fits` over schedule concatenation. -/

theorem new_class_time_fits_append (p q : List Class) (ts : List ClassTime) :
    new_class_time_fits (p ++ q) ts =
      (new_class_time_fits p ts && new_class_time_fits q ts) := by
  rw [Bool.eq_iff_iff]
  simp only [new_class_time_fits, Bool.and_eq_true, List.all_eq_true, List.mem_append]
  aesop

theorem new_class_time_fits_nil_schedule (ts : List ClassTime) :
    new_class_time_fits [] ts = true := by
  simp [new_class_time_fits]

theorem new_class_time_fits_singleton (c : Class) (ts : List ClassTime) :
    new_class_time_fits [c] ts =
      ts.all fun nt => c.times.all fun tt => !(tt.overlaps nt) := by
  simp [new_class_time_fits]

/-- `fits_after p t` splits into: every element of `t` fits the fixed already
accepted schedule `p`, and `t` is directionally conflict free internally. -/
theorem fits_after_iff :
    ∀ (t : List Class) (p : List Class),
      fits_after p t = true ↔
        ((∀ c ∈ t, new_class_time_fits p c.times = true) ∧
          dir_conflict_free t = true) := by
  intro t
  induction t with
  | nil => intro p; simp [fits_after, dir_conflict_free]
  | cons c rest ih =>
      intro p
      constructor
      · intro h
        simp only [fits_after, Bool.and_eq_true] at h
        obtain ⟨hc, hrest⟩ := h
        rw [ih] at hrest
        obtain ⟨hall, hdir⟩ := hrest
        constructor
        · intro x hx
          rcases List.mem_cons.mp hx with rfl | hx'
          · exact hc
          · have hx2 := hall x hx'
            rw [new_class_time_fits_append, Bool.and_eq_true] at hx2
            exact hx2.1
        · simp only [dir_conflict_free, Bool.and_eq_true]
          refine ⟨?_, hdir⟩
          rw [List.all_eq_true]
          intro c2 hc2
          have hc2f := hall c2 hc2
          rw [new_class_time_fits_append, Bool.and_eq_true] at hc2f
          have h2 := hc2f.2
          rw [new_class_time_fits_singleton] at h2
          exact h2
      · intro h
        obtain ⟨hall, hdir⟩ := h
        simp only [fits_after, Bool.and_eq_true]
        refine ⟨hall c (List.mem_cons_self _ _), ?_⟩
        rw [ih]
        simp only [dir_conflict_free, Bool.and_eq_true, List.all_eq_true] at hdir
        constructor
        · intro c2 hc2
          rw [new_class_time_fits_append, Bool.and_eq_true]
          refine ⟨hall c2 (List.mem_cons_of_mem _ hc2), ?_⟩
          rw [new_class_time_fits_singleton]
          simp only [List.all_eq_true]
          exact hdir.1 c2 hc2
        · exact hdir.2

/-- Symmetric conflict-freeness implies the directional one. -/
theorem dir_of_sym (cs : List Class) (h : sym_conflict_free cs = true) :
    dir_conflict_free cs = true := by
  induction cs with
  | nil => rfl
  | cons c rest ih =>
      simp only [sym_conflict_free, Bool.and_eq_true, List.all_eq_true] at h
      simp only [dir_conflict_free, Bool.and_eq_true, List.all_eq_true]
      obtain ⟨h1, h2⟩ := h
      refine ⟨?_, ih h2⟩
      intro c2 hc2
      have hcd := h1 c2 hc2
      simp only [classes_disjoint, List.all_eq_true, Bool.and_eq_true] at hcd
      intro u hu tt htt
      exact (hcd tt htt u hu).1

/-- A symmetrically conflict-free selection passes all the builder's checks
starting from the empty schedule. -/
theorem fits_after_nil_of_sym (cs : List Class) (h : sym_conflict_free cs = true) :
    fits_after [] cs = true := by
  rw [fits_after_iff]
  exact ⟨fun c _ => new_class_time_fits_nil_schedule c.times, dir_of_sym cs h⟩

/-- Counting helper valid for any lawful boolean equality. -/
theorem count_eq_one_of_nodup_mem {α : Type} [BEq α] [LawfulBEq α] {l : List α} {a : α}
    (hnd : l.Nodup) (hmem : a ∈ l) : l.count a = 1 := by
  induction l with
  | nil => cases hmem
  | cons b l ih =>
      rw [List.nodup_cons] at hnd
      rcases List.mem_cons.mp hmem with heq | hmem'
      · subst heq
        rw [List.count_cons]
        have hz : l.count a = 0 := List.count_eq_zero.mpr hnd.1
        simp [hz]
      · have hne : b ≠ a := fun h => hnd.1 (h ▸ hmem')
        rw [List.count_cons]
        have hb : (b == a) = false := by simpa using hne
        simp [hb, ih hnd.2 hmem']

/-! Duplicate-freeness of the builder's output. -/

theorem get_fitting_classes_nodup (s : List Class) (c : UnrealizedClass)
    (h : c.time_options.Nodup) : (get_fitting_classes s c).Nodup := by
  rw [get_fitting_classes_eq]
  refine List.Nodup.map ?_ (h.filter _)
  intro a b hab
  simpa using hab

theorem build_step_lengths (acc : List (List Class)) (c : UnrealizedClass) (k : Nat)
    (hlen : ∀ s ∈ acc, s.length = k) :
    ∀ x ∈ build_step acc c, x.length = k + 1 := by
  intro x hx
  rcases mem_build_step.mp hx with ⟨s, hs, o, _, _, rfl⟩
  simp [hlen s hs]

theorem build_step_nodup (acc : List (List Class)) (c : UnrealizedClass) (k : Nat)
    (hacc : acc.Nodup) (hlen : ∀ s ∈ acc, s.length = k)
    (hopts : c.time_options.Nodup) : (build_step acc c).Nodup := by
  rw [build_step_eq]
  induction acc with
  | nil => simp
  | cons s rest ih =>
      rw [List.flatMap_cons]
      rw [List.nodup_cons] at hacc
      apply List.Nodup.append
      · refine List.Nodup.map ?_ (get_fitting_classes_nodup s c hopts)
        intro a b hab
        have := List.append_inj hab rfl
        simpa using this.2
      · exact ih hacc.2 (fun x hx => hlen x (List.mem_cons_of_mem _ hx))
      · rw [List.disjoint_left]
        rintro x hx1 hx2
        rcases List.mem_map.mp hx1 with ⟨a, _, rfl⟩
        rcases List.mem_flatMap.mp hx2 with ⟨p, hp, hxp⟩
        rcases List.mem_map.mp hxp with ⟨b, _, hb⟩
        have hslen : s.length = k := hlen s (List.mem_cons_self _ _)
        have hplen : p.length = k := hlen p (List.mem_cons_of_mem _ hp)
        have := List.append_inj hb.symm (by rw [hslen, hplen])
        exact hacc.1 (this.1 ▸ hp)

theorem nodup_foldl_build_step :
    ∀ (rs : List UnrealizedClass) (acc : List (List Class)) (k : Nat),
      (∀ r ∈ rs, r.time_options.Nodup) → acc.Nodup → (∀ s ∈ acc, s.length = k) →
      (rs.foldl build_step acc).Nodup := by
  intro rs
  induction rs with
  | nil =>
      intro acc k _ hacc _
      simpa using hacc
  | cons c rest ih =>
      intro acc k hopts hacc hlen
      rw [List.foldl_cons]
      exact ih (build_step acc c) (k + 1)
        (fun r hr => hopts r (List.mem_cons_of_mem _ hr))
        (build_step_nodup acc c k hacc hlen (hopts c (List.mem_cons_self _ _)))
        (build_step_lengths acc c k hlen)

/-- If no request lists the same option twice, the output has no duplicates. -/
theorem nodup_build_schedules (reqs : List UnrealizedClass)
    (h : ∀ r ∈ reqs, r.time_options.Nodup) : (build_schedules reqs).Nodup :=
  nodup_foldl_build_step reqs [[]] 0 h (by simp) (by simp)

/-! Claim C3. -/

/-- Claim C3 (counterexample): if a request lists the same option twice, the
corresponding valid combination appears twice in the output, not exactly once.
Here request "A" has `time_options = [[ct], [ct]]` for ct = (Mon, 09:00-10:00);
the combination `[Class "A" [ct]]` selects one option per request and has no
overlapping pair across distinct selections, yet its count in the result is 2. -/
theorem c3_exactly_once_counterexample :
    is_combo
        [UnrealizedClass.mk "A"
          [[ClassTime.mk Day.MON (Time.make 9 0) (Time.make 10 0)],
           [ClassTime.mk Day.MON (Time.make 9 0) (Time.make 10 0)]]]
        [Class.mk "A" [ClassTime.mk Day.MON (Time.make 9 0) (Time.make 10 0)]] = true ∧
    sym_conflict_free
        [Class.mk "A" [ClassTime.mk Day.MON (Time.make 9 0) (Time.make 10 0)]] = true ∧
    (build_schedules
        [UnrealizedClass.mk "A"
          [[ClassTime.mk Day.MON (Time.make 9 0) (Time.make 10 0)],
           [ClassTime.mk Day.MON (Time.make 9 0) (Time.make 10 0)]]]).count
      [Class.mk "A" [ClassTime.mk Day.MON (Time.make 9 0) (Time.make 10 0)]] = 2 := by
  decide

/-- Claim C3 (amended): provided each request's `time_options` has no
duplicate entries, the returned list is duplicate free, and every combination
that selects exactly one option per request and contains no overlapping
interval pair across distinct selections (in either argument order) appears
exactly once in the list returned by `build_schedules`. -/
theorem c3_exactly_once (reqs : List UnrealizedClass)
    (hnd : ∀ r ∈ reqs, r.time_options.Nodup) :
    (build_schedules reqs).Nodup ∧
      ∀ cs : List Class, is_combo reqs cs = true → sym_conflict_free cs = true →
        (build_schedules reqs).count cs = 1 := by
  refine ⟨nodup_build_schedules reqs hnd, ?_⟩
  intro cs hcombo hsym
  apply count_eq_one_of_nodup_mem (nodup_build_schedules reqs hnd)
  rw [mem_build_schedules]
  exact ⟨hcombo, fits_after_nil_of_sym cs hsym⟩

/-- Witness for the amended C3 on a single request with a single option. -/
theorem c3_exactly_once_witness :
    (build_schedules
        [UnrealizedClass.mk "A"
          [[ClassTime.mk Day.MON (Time.make 9 0) (Time.make 10 0)]]]).Nodup ∧
    (build_schedules
        [UnrealizedClass.mk "A"
          [[ClassTime.mk Day.MON (Time.make 9 0) (Time.make 10 0)]]]).count
      [Class.mk "A" [ClassTime.mk Day.MON (Time.make 9 0) (Time.make 10 0)]] = 1 :=
  ⟨(c3_exactly_once _ (by decide)).1,
   (c3_exactly_once _ (by decide)).2 _ (by decide) (by decide)⟩

/-! Machinery for C10: replacing one selection by an empty-times selection
preserves validity. -/

theorem dir_conflict_free_iff_pairwise (cs : List Class) :
    dir_conflict_free cs = true ↔
      cs.Pairwise fun a b => ∀ t ∈ a.times, ∀ u ∈ b.times, t.overlaps u = false := by
  induction cs with
  | nil => simp [dir_conflict_free]
  | cons c rest ih =>
      simp only [dir_conflict_free, Bool.and_eq_true, List.all_eq_true, List.pairwise_cons,
        ih, Bool.not_eq_true']
      constructor
      · rintro ⟨h1, h2⟩
        refine ⟨?_, h2⟩
        intro b hb t ht u hu
        exact h1 b hb u hu t ht
      · rintro ⟨h1, h2⟩
        refine ⟨?_, h2⟩
        intro b hb u hu t ht
        exact h1 b hb t ht u hu

/-- A selection with an empty interval list can replace any selection without
breaking directional conflict-freeness. -/
theorem dir_replace_empty (m1 m2 : List Class) (c : Class) (n : String)
    (h : dir_conflict_free (m1 ++ c :: m2) = true) :
    dir_conflict_free (m1 ++ Class.mk n [] :: m2) = true := by
  rw [dir_conflict_free_iff_pairwise] at h ⊢
  rw [List.pairwise_append] at h ⊢
  rw [List.pairwise_cons] at h ⊢
  obtain ⟨h1, ⟨h2, h3⟩, h4⟩ := h
  refine ⟨h1, ⟨?_, h3⟩, ?_⟩
  · intro b hb t ht
    exact absurd ht (by simp)
  · intro a ha b hb
    rcases List.mem_cons.mp hb with rfl | hb'
    · intro t ht u hu
      exact absurd hu (by simp)
    · exact h4 a ha b (List.mem_cons_of_mem _ hb')

theorem is_combo_append :
    ∀ (l1 l2 : List UnrealizedClass) (cs : List Class),
      is_combo (l1 ++ l2) cs = true ↔
        ∃ m1 m2, cs = m1 ++ m2 ∧ is_combo l1 m1 = true ∧ is_combo l2 m2 = true := by
  intro l1
  induction l1 with
  | nil =>
      intro l2 cs
      simp only [List.nil_append]
      constructor
      · intro h
        exact ⟨[], cs, rfl, rfl, h⟩
      · rintro ⟨m1, m2, rfl, h1, h2⟩
        cases m1 with
        | nil => simpa using h2
        | cons x xs => simp [is_combo] at h1
  | cons r l1' ih =>
      intro l2 cs
      cases cs with
      | nil =>
          simp only [List.cons_append]
          constructor
          · intro h
            simp [is_combo] at h
          · rintro ⟨m1, m2, hm, h1, h2⟩
            cases m1 with
            | nil => simp [is_combo] at h1
            | cons x xs => simp at hm
      | cons ch ct =>
          constructor
          · intro h
            rw [List.cons_append] at h
            simp only [is_combo, Bool.and_eq_true, decide_eq_true_eq] at h
            obtain ⟨⟨hn, hme⟩, hrest⟩ := h
            rw [ih] at hrest
            obtain ⟨m1, m2, hct, h1, h2⟩ := hrest
            refine ⟨ch :: m1, m2, by rw [hct, List.cons_append], ?_, h2⟩
            simp [is_combo, hn, hme, h1]
          · rintro ⟨m1, m2, hm, h1, h2⟩
            cases m1 with
            | nil => simp [is_combo] at h1
            | cons x xs =>
                rw [List.cons_append] at hm
                injection hm with hx hrest
                subst hx
                simp only [is_combo, Bool.and_eq_true, decide_eq_true_eq] at h1
                obtain ⟨⟨hn, hme⟩, h1s⟩ := h1
                rw [List.cons_append]
                simp only [is_combo, Bool.and_eq_true, decide_eq_true_eq]
                refine ⟨⟨hn, hme⟩, ?_⟩
                rw [ih]
                exact ⟨xs, m2, hrest, h1s, h2⟩

/-! Claim C10. -/

/-- Claim C10 (counterexample): request "B" contains the empty option, but a
later request with zero options kills every branch, so `build_schedules`
returns no schedule at all — in particular no returned schedule selects B's
empty option, refuting "always selected in at least one returned schedule". -/
theorem c10_empty_option_counterexample :
    [] ∈ (UnrealizedClass.mk "B" [[]]).time_options ∧
    build_schedules
        [UnrealizedClass.mk "B" [[]],
         UnrealizedClass.mk "A" ([] : List (List ClassTime))] = [] := by
  decide

/-- Claim C10 (amended): an empty interval list fits every schedule
(`new_class_time_fits schedule [] = true` for all schedules), and whenever
some request of the input contains the empty option and `build_schedules`
returns at least one schedule, at least one returned schedule selects that
request's empty option. -/
theorem c10_empty_option_fits :
    (∀ schedule : List Class, new_class_time_fits schedule [] = true) ∧
    ∀ (reqs : List UnrealizedClass) (r : UnrealizedClass), r ∈ reqs →
      [] ∈ r.time_options → build_schedules reqs ≠ [] →
      ∃ cs ∈ build_schedules reqs, Class.mk r.name [] ∈ cs := by
  constructor
  · intro schedule
    rfl
  · intro reqs r hr hopt hne
    obtain ⟨cs0, hcs0⟩ := List.exists_mem_of_ne_nil _ hne
    rw [mem_build_schedules] at hcs0
    obtain ⟨hcombo, hfits⟩ := hcs0
    obtain ⟨l1, l2, rfl⟩ := List.append_of_mem hr
    rw [is_combo_append] at hcombo
    obtain ⟨m1, m2x, hcs0eq, hm1, hm2x⟩ := hcombo
    cases m2x with
    | nil => simp [is_combo] at hm2x
    | cons c m2 =>
        simp only [is_combo, Bool.and_eq_true, decide_eq_true_eq] at hm2x
        obtain ⟨⟨hname, hmemtimes⟩, hm2⟩ := hm2x
        subst hcs0eq
        have hdir : dir_conflict_free (m1 ++ c :: m2) = true :=
          ((fits_after_iff _ []).mp hfits).2
        have hdir' := dir_replace_empty m1 m2 c r.name hdir
        have hfits' : fits_after [] (m1 ++ Class.mk r.name [] :: m2) = true := by
          rw [fits_after_iff]
          exact ⟨fun x _ => new_class_time_fits_nil_schedule x.times, hdir'⟩
        have hcombo' :
            is_combo (l1 ++ r :: l2) (m1 ++ Class.mk r.name [] :: m2) = true := by
          rw [is_combo_append]
          refine ⟨m1, Class.mk r.name [] :: m2, rfl, hm1, ?_⟩
          simp [is_combo, hopt, hm2]
        refine ⟨m1 ++ Class.mk r.name [] :: m2, ?_, ?_⟩
        · rw [mem_build_schedules]
          exact ⟨hcombo', hfits'⟩
        · simp

/-- Witness for the amended C10: with the single request "A" whose only option
is the empty interval list, the builder returns a schedule selecting it. -/
theorem c10_empty_option_fits_witness :
    new_class_time_fits
        [Class.mk "X" [ClassTime.mk Day.MON (Time.make 9 0) (Time.make 10 0)]] [] = true ∧
    ∃ cs ∈ build_schedules [UnrealizedClass.mk "A" [[]]], Class.mk "A" [] ∈ cs :=
  ⟨c10_empty_option_fits.1 _,
   c10_empty_option_fits.2 [UnrealizedClass.mk "A" [[]]] (UnrealizedClass.mk "A" [[]])
     (by decide) (by decide) (by decide)⟩

end Scheduler
